import Mathlib

/-!
Verification of the standards-extraction pipeline (`scripts/extract_standards.py`).

The script reads positioned words from PDF pages, groups them into rows,
recognizes standards codes with the anchored regex `CODE_RE`, resolves a
grade label (`infer_grade`, `col_to_grade`), fabricates surrogate codes for
England (`eng_`) subjects whose documents carry no codes, and accumulates
`{code, description}` records keyed by grade label, sorting each group by
code at the end of `extract`.

This file embeds that pipeline shallowly:

* Token texts are Lean `String`s (lists of Unicode characters).  The regex
  character classes `\d`, `\w`, `\s` are modelled by their ASCII parts
  (`isDigitA`, `isWordA`, `isSpacePy`); the literal classes `[A-Z]`,
  `[a-z]`, `[DMTVA]`, `[0-9A-Z\-]` of `CODE_RE` are exact.  Python's `$`
  anchor also matches just before a single trailing newline, which
  `codeReMatch` reproduces on top of the whole-string alternation
  `altFull`.
* Horizontal/vertical positions are `Rat` (pdfplumber reports finite reals;
  only order comparisons against integer constants occur).
* The row loop of `extract` is `stepRow` / `runRows` over a list of rows
  (row assembly from pages happens upstream of everything the claims
  mention, so rows are taken as input).  A Python `TypeError` /
  `IndexError` is modelled as `Except.error`.
* `data.setdefault(g, []).append r` is modelled by an emission log
  `List (String × Record)`; the list stored under key `g` at any moment is
  `recsFor log g`.  The final per-key stable sort by `code`
  (`list.sort(key=...)`, Timsort: stable) is modelled by the stable
  insertion sort `sortRecords` over the lexicographic-by-code-point order
  `codeLe`.
-/

/-- ASCII decimal digit, the ASCII part of Python's `\d`. -/
def isDigitA (c : Char) : Bool := '0' ≤ c && c ≤ '9'

/-- Nonzero ASCII digit, the class `[1-9]`. -/
def isDigit19 (c : Char) : Bool := '1' ≤ c && c ≤ '9'

/-- Uppercase ASCII letter, the class `[A-Z]`. -/
def isUpperA (c : Char) : Bool := 'A' ≤ c && c ≤ 'Z'

/-- Lowercase ASCII letter, the class `[a-z]`. -/
def isLowerA (c : Char) : Bool := 'a' ≤ c && c ≤ 'z'

/-- ASCII letter, the class `[a-zA-Z]`. -/
def isLetterA (c : Char) : Bool := isLowerA c || isUpperA c

/-- Word character, the ASCII part of Python's `\w`: `[0-9a-zA-Z_]`. -/
def isWordA (c : Char) : Bool := isDigitA c || isLetterA c || c == '_'

/-- Whitespace, the ASCII part of Python's `\s` (also used for `str.strip`). -/
def isSpacePy (c : Char) : Bool :=
  c == ' ' || c == '\t' || c == '\n' || c == '\r' || c == '\x0b' || c == '\x0c'

/-- Character class `[DMTVA]` of the Arts alternative of `CODE_RE`. -/
def inDMTVA (c : Char) : Bool :=
  c == 'D' || c == 'M' || c == 'T' || c == 'V' || c == 'A'

/-- Character class `[0-9A-Z\-]` of the Science / Social-Studies alternatives. -/
def inDigUpDash (c : Char) : Bool := isDigitA c || isUpperA c || c == '-'

/-- Boolean list-prefix test (Python `str.startswith` over character lists). -/
def isPfx : List Char → List Char → Bool
  | [], _ => true
  | _ :: _, [] => false
  | p :: ps, c :: cs => p == c && isPfx ps cs

/-- Boolean substring-containment test (Python `needle in haystack`). -/
def containsSub (p : List Char) : List Char → Bool
  | [] => p.isEmpty
  | c :: rest => isPfx p (c :: rest) || containsSub p rest

/-- Tail of the Arts alternative after `[DMTVA]{2}:[A-Z]`: matches
`[a-zA-Z]*\.\d+\.\w+` against the whole remaining input.  The starred
letters and plus-classes are each followed by a character (`.` or end) not
in the class, so the greedy regex is equivalent to taking maximal runs. -/
def artsTail2 (l : List Char) : Bool :=
  match l.dropWhile isLetterA with
  | c :: r =>
    c == '.' && !(r.takeWhile isDigitA).isEmpty &&
    (match r.dropWhile isDigitA with
     | c2 :: r2 => c2 == '.' && !r2.isEmpty && r2.all isWordA
     | [] => false)
  | [] => false

/-- Arts alternative `[DMTVA]{2}:[A-Z][a-zA-Z]*\.\d+\.\w+` of `CODE_RE`,
matched against the entire input. -/
def artsMatch (l : List Char) : Bool :=
  match l with
  | c1 :: c2 :: c3 :: u :: rest =>
    inDMTVA c1 && inDMTVA c2 && c3 == ':' && isUpperA u && artsTail2 rest
  | _ => false

/-- Tail of the CDOS alternative after the optional space and the first
digit: matches `(?:\.\d)?[a-z]?` against the whole remaining input. -/
def cdosFrac (l : List Char) : Bool :=
  match l with
  | [] => true
  | [c] => isLowerA c
  | [c1, c2] => c1 == '.' && isDigitA c2
  | [c1, c2, c3] => c1 == '.' && isDigitA c2 && isLowerA c3
  | _ => false

/-- Digit-and-fraction part `\d(?:\.\d)?[a-z]?` of the CDOS alternative. -/
def cdosNum (l : List Char) : Bool :=
  match l with
  | d :: rest => isDigitA d && cdosFrac rest
  | [] => false

/-- CDOS alternative `CDOS\s?\d(?:\.\d)?[a-z]?` of `CODE_RE`.  The optional
`\s?` is deterministic: a whitespace character is never a digit, so the
greedy option must consume it exactly when it is present. -/
def cdosMatch (l : List Char) : Bool :=
  match l with
  | c1 :: c2 :: c3 :: c4 :: rest =>
    c1 == 'C' && c2 == 'D' && c3 == 'O' && c4 == 'S' &&
    (match rest with
     | c :: r => if isSpacePy c then cdosNum r else cdosNum rest
     | [] => false)
  | _ => false

/-- Middle part `[A-Z]{1,4}\.[0-9A-Z]+` of the Math/ELA alternative.  The
bounded repetition is followed by `.`, not an uppercase letter, so it must
consume exactly the maximal uppercase run, whose length must be 1–4. -/
def nyMid (l : List Char) : Bool :=
  let us := l.takeWhile isUpperA
  1 ≤ us.length && us.length ≤ 4 &&
  (match l.dropWhile isUpperA with
   | c :: r => c == '.' && !r.isEmpty && r.all (fun c2 => isDigitA c2 || isUpperA c2)
   | [] => false)

/-- Tail of the Math/ELA alternative after `NY-`: matches
`\d+[A-Z]?\.[A-Z]{1,4}\.[0-9A-Z]+` against the whole remaining input.
`[A-Z]?\.` is deterministic because an uppercase letter is never `.`. -/
def nyTail (l : List Char) : Bool :=
  !(l.takeWhile isDigitA).isEmpty &&
  (match l.dropWhile isDigitA with
   | c :: r =>
     if c == '.' then nyMid r
     else if isUpperA c then
       match r with
       | c2 :: r2 => c2 == '.' && nyMid r2
       | [] => false
     else false
   | [] => false)

/-- Math/ELA alternative `NY-\d+[A-Z]?\.[A-Z]{1,4}\.[0-9A-Z]+` of `CODE_RE`. -/
def nyMatch (l : List Char) : Bool :=
  match l with
  | c1 :: c2 :: c3 :: rest => c1 == 'N' && c2 == 'Y' && c3 == '-' && nyTail rest
  | _ => false

/-- Science alternative `NYSSLS-[0-9A-Z\-]+` of `CODE_RE`. -/
def nysslsMatch (l : List Char) : Bool :=
  isPfx ['N', 'Y', 'S', 'S', 'L', 'S', '-'] l &&
  !(l.drop 7).isEmpty && (l.drop 7).all inDigUpDash

/-- Social-Studies alternative `SS\.[0-9A-Z\-]+` of `CODE_RE`. -/
def ssMatch (l : List Char) : Bool :=
  match l with
  | c1 :: c2 :: c3 :: rest =>
    c1 == 'S' && c2 == 'S' && c3 == '.' && !rest.isEmpty && rest.all inDigUpDash
  | _ => false

/-- World-Languages alternative `WL\.[A-Z]{2,4}\.\d+` of `CODE_RE`. -/
def wlMatch (l : List Char) : Bool :=
  match l with
  | c1 :: c2 :: c3 :: rest =>
    c1 == 'W' && c2 == 'L' && c3 == '.' &&
    (let us := rest.takeWhile isUpperA
     2 ≤ us.length && us.length ≤ 4 &&
     (match rest.dropWhile isUpperA with
      | c :: r => c == '.' && !r.isEmpty && r.all isDigitA
      | [] => false))
  | _ => false

/-- Ordered alternation of the six family patterns of `CODE_RE`, matched
against the entire character list. -/
def altFull (l : List Char) : Bool :=
  artsMatch l || cdosMatch l || nyMatch l || nysslsMatch l || ssMatch l || wlMatch l

/-- Truthiness of `CODE_RE.match(s)`: the pattern is `^(?:...)$`, and
Python's `$` matches at the end of the string or just before a single
newline at the end of the string. -/
def codeReMatch (s : String) : Bool :=
  altFull s.data ||
    (match s.data.getLast? with
     | some c => c == '\n' && altFull s.data.dropLast
     | none => false)

/-- Breakpoint list `BREAKS` (column → grade lookup for NYS Arts PDFs). -/
def BREAKS : List Rat := [180, 270, 345, 415, 485, 555, 625, 695, 765, 835]

/-- Grade-label list `GRADES`. -/
def GRADES : List String :=
  ["Grade PK", "Grade K", "Grade 1", "Grade 2", "Grade 3",
   "Grade 4", "Grade 5", "Grade 6", "Grade 7", "Grade 8", "HSI"]

/-- Loop of `col_to_grade`: walk `BREAKS` and `GRADES` in parallel and
return the label of the first breakpoint exceeding `x`; past the last
breakpoint return `GRADES[-1]`. -/
def colToGradeGo (x : Rat) : List Rat → List String → String
  | b :: bs, g :: gs => if x < b then g else colToGradeGo x bs gs
  | _, _ => GRADES.getLastD ""

/-- Python `col_to_grade`. -/
def colToGrade (x : Rat) : String := colToGradeGo x BREAKS GRADES

/-- Match of `NY-(\d+)` anchored at the head of the list: on success,
returns the captured maximal digit run. -/
def nyHere : List Char → Option (List Char)
  | c1 :: c2 :: c3 :: d :: r =>
    if c1 == 'N' && c2 == 'Y' && c3 == '-' && isDigitA d then
      some (d :: r.takeWhile isDigitA)
    else none
  | _ => none

/-- Python `re.search(r"NY-(\d+)", ·)`: try each start position from the
left, returning the first successful capture. -/
def searchNY : List Char → Option (List Char)
  | [] => none
  | c :: rest =>
    match nyHere (c :: rest) with
    | some ds => some ds
    | none => searchNY rest

/-- Match of `NYSSLS-(\d)` anchored at the head of the list. -/
def sciHere (l : List Char) : Option Char :=
  if isPfx ['N', 'Y', 'S', 'S', 'L', 'S', '-'] l then
    match l.drop 7 with
    | d :: _ => if isDigitA d then some d else none
    | [] => none
  else none

/-- Python `re.search(r"NYSSLS-(\d)", ·)`. -/
def searchSci : List Char → Option Char
  | [] => none
  | c :: rest =>
    match sciHere (c :: rest) with
    | some d => some d
    | none => searchSci rest

/-- Match of `SS\.([1-9])` anchored at the head of the list. -/
def ssHere : List Char → Option Char
  | c1 :: c2 :: c3 :: d :: _ =>
    if c1 == 'S' && c2 == 'S' && c3 == '.' && isDigit19 d then some d else none
  | _ => none

/-- Python `re.search(r"SS\.([1-9])", ·)`. -/
def searchSS : List Char → Option Char
  | [] => none
  | c :: rest =>
    match ssHere (c :: rest) with
    | some d => some d
    | none => searchSS rest

/-- Character list of the literal `"social_studies"`. -/
def socialChars : List Char :=
  ['s', 'o', 'c', 'i', 'a', 'l', '_', 's', 't', 'u', 'd', 'i', 'e', 's']

/-- Python `infer_grade(subject_key, code, fallback)`: three guarded
embedded-grade searches tried in order, else the fallback unchanged. -/
def inferGrade (subjectKey code fallback : String) : String :=
  match (if subjectKey == "mathematics" || subjectKey == "ela"
         then searchNY code.data else none) with
  | some ds => "Grade " ++ String.mk ds
  | none =>
    match (if subjectKey == "science" then searchSci code.data else none) with
    | some d => "Grade " ++ String.mk [d]
    | none =>
      match (if isPfx socialChars subjectKey.data then searchSS code.data else none) with
      | some d => "Grade " ++ String.mk [d]
      | none => fallback

/-- Single decimal digit character (`0`–`9` for `n < 10`). -/
def decChar (n : Nat) : Char := Char.ofNat (48 + n)

/-- Fuel-driven decimal rendering: `decAux fuel n acc` prepends the decimal
digits of `n` to `acc`, provided `n < fuel`. -/
def decAux : Nat → Nat → List Char → List Char
  | 0, _, acc => acc
  | fuel + 1, n, acc =>
    if n < 10 then decChar (n % 10) :: acc
    else decAux fuel (n / 10) (decChar (n % 10) :: acc)

/-- Decimal digit list of `n` (Python `"%d" % n` for a natural number). -/
def decRepr (n : Nat) : List Char := decAux (n + 1) n []

/-- Python `f"{n:03d}"` for a natural number: the decimal digits of `n`
left-padded with zeros to a minimum width of 3. -/
def pad3 (n : Nat) : String :=
  String.mk (List.replicate (3 - (decRepr n).length) '0' ++ decRepr n)

/-- Positioned word as delivered by `page.extract_words()`: text plus the
left edge `x0`, right edge `x1` and top edge of its bounding box. -/
structure Word where
  text : String
  x0 : Rat
  x1 : Rat
  top : Rat
deriving DecidableEq

/-- Output record `{"code": ..., "description": ...}` of `extract`. -/
structure Record where
  code : String
  description : String
deriving DecidableEq

/-- Python `str.strip()` over the modelled whitespace class. -/
def trimPy (s : String) : String :=
  String.mk (((s.data.dropWhile isSpacePy).reverse.dropWhile isSpacePy).reverse)

/-- Description line of `extract`:
`" ".join(w["text"] for w in row if w["x0"] > code_word["x1"]).strip()`. -/
def joinDescr (codeX1 : Rat) (row : List Word) : String :=
  trimPy (String.intercalate " " ((row.filter (fun w => codeX1 < w.x0)).map (fun w => w.text)))

/-- Python `subject_key.startswith("eng_")`. -/
def startsWithEng (s : String) : Bool := isPfx ['e', 'n', 'g', '_'] s.data

/-- Key-Stage label chosen by the fabrication branch of `extract` from
substring tests on the subject key (`"_primary" in subject_key`, ...). -/
def ksOf (s : String) : String :=
  if containsSub ['_', 'p', 'r', 'i', 'm', 'a', 'r', 'y'] s.data then "KS1-2"
  else if containsSub ['_', 's', 'e', 'c', 'o', 'n', 'd', 'a', 'r', 'y'] s.data then "KS3"
  else if containsSub ['_', 'k', 's', '4'] s.data
       || containsSub ['_', 'g', 'c', 's', 'e'] s.data then "KS4"
  else "KS?"

/-- Python `str.split("_")` over character lists: split at every
underscore, keeping empty pieces. -/
def splitOnU : List Char → List (List Char)
  | [] => [[]]
  | c :: rest =>
    if c == '_' then [] :: splitOnU rest
    else
      match splitOnU rest with
      | p :: ps => (c :: p) :: ps
      | [] => [[c]]

/-- Subject tag `subject_key.split("_")[1][:2].upper()`; `none` models the
`IndexError` Python would raise if the split had fewer than two pieces. -/
def tagOfOpt (s : String) : Option String :=
  match splitOnU s.data with
  | _ :: p1 :: _ => some (String.mk ((p1.take 2).map Char.toUpper))
  | _ => none

/-- Body of the row loop of `extract` acting on the emission log `data`:
find the first code word, fabricate a surrogate code for code-free rows of
`eng_` subjects, resolve the grade label, and append the record.  For a
code-free row of a non-`eng_` subject the source dereferences the `None`
`code_word` (the guard `if not code_word: continue` comes only after that),
modelled as `Except.error`. -/
def stepRow (subjectKey : String) (data : List (String × Record)) (row : List Word) :
    Except String (List (String × Record)) :=
  let codeWord? := row.find? (fun w => codeReMatch w.text)
  if codeWord?.isNone && startsWithEng subjectKey then
    let ks := ksOf subjectKey
    match tagOfOpt subjectKey with
    | none => Except.error "IndexError: list index out of range"
    | some tag =>
      let counter := (data.filter (fun p => p.1 == ks)).length + 1
      let fakeCode := ks ++ "-" ++ tag ++ "-" ++ pad3 counter
      Except.ok (data ++ [(ks, { code := fakeCode, description := joinDescr 0 row })])
  else
    match codeWord? with
    | none => Except.error "TypeError: NoneType object is not subscriptable"
    | some w =>
      let gradeGuess := if subjectKey == "cdos" then "K-12" else colToGrade w.x0
      let gradeLabel := inferGrade subjectKey w.text gradeGuess
      Except.ok (data ++ [(gradeLabel, { code := w.text, description := joinDescr w.x1 row })])

/-- Row loop of `extract` over all rows of all pages (pages contribute
their rows in order; the log survives page boundaries). -/
def runRows (subjectKey : String) : List (List Word) → List (String × Record) →
    Except String (List (String × Record))
  | [], data => Except.ok data
  | row :: rest, data =>
    match stepRow subjectKey data row with
    | Except.error e => Except.error e
    | Except.ok data2 => runRows subjectKey rest data2

/-- Records appended under key `g` so far, in emission order: the list
`data[g]` of the Python dict. -/
def recsFor (data : List (String × Record)) (g : String) : List Record :=
  (data.filter (fun p => p.1 == g)).map Prod.snd

/-- Accumulator loop for `keysOf`: `acc` holds the keys seen so far in
reverse order. -/
def keysOfAux (acc : List String) : List (String × Record) → List String
  | [] => acc.reverse
  | (g, _) :: rest => if g ∈ acc then keysOfAux acc rest else keysOfAux (g :: acc) rest

/-- Keys of the emission log in first-appearance order (Python dict key
order). -/
def keysOf (log : List (String × Record)) : List String := keysOfAux [] log

/-- Lexicographic comparison of character lists by code point: the order
Python uses for `str` comparison. -/
def listLe : List Char → List Char → Bool
  | [], _ => true
  | _ :: _, [] => false
  | a :: as, b :: bs =>
    if a.toNat < b.toNat then true
    else if b.toNat < a.toNat then false
    else listLe as bs

/-- Record comparison by the `code` field (`key=lambda d: d["code"]`). -/
def codeLe (a b : Record) : Bool := listLe a.code.data b.code.data

/-- Stable insertion of a record into a list sorted by `codeLe`: the new
record goes after every record it compares `≥` to. -/
def insRec (x : Record) : List Record → List Record
  | [] => [x]
  | y :: ys => if codeLe y x then y :: insRec x ys else x :: y :: ys

/-- Stable sort by `code` (Python `list.sort(key=lambda d: d["code"])`,
Timsort: stable, so any stable sort over the same order is faithful). -/
def sortRecords (l : List Record) : List Record :=
  l.foldl (fun acc x => insRec x acc) []

/-- Final loop of `extract`: sort `data[g]` for every key `g`, keeping dict
key order. -/
def finishData (log : List (String × Record)) : List (String × List Record) :=
  (keysOf log).map (fun g => (g, sortRecords (recsFor log g)))

/-- Python `extract(pdf_path, subject_key)` from the row stream on: run all
rows, then sort each grade group by code. -/
def extract (subjectKey : String) (rows : List (List Word)) :
    Except String (List (String × List Record)) :=
  (runRows subjectKey rows []).map finishData

/-- Decimal value of a digit list continued from the accumulator `a`
(specification-side inverse of `decRepr`, used to prove injectivity of the
surrogate-code counters). -/
def decVala (a : Nat) (l : List Char) : Nat :=
  l.foldl (fun acc c => acc * 10 + (c.toNat - 48)) a

/-- Concrete row used to witness the C3 description theorem. -/
def rowC3 : List Word :=
  [{ text := "DA:Cr.1.1", x0 := 50, x1 := 90, top := 10 },
   { text := "left", x0 := 10, x1 := 20, top := 10 },
   { text := "right", x0 := 100, x1 := 130, top := 10 }]

/-- Code word of `rowC3`. -/
def wordC3 : Word := { text := "DA:Cr.1.1", x0 := 50, x1 := 90, top := 10 }

theorem decAux_append (f : Nat) : ∀ n acc, decAux f n acc = decAux f n [] ++ acc := by
  induction f with
  | zero => intro n acc; simp [decAux]
  | succ f ih =>
    intro n acc
    by_cases h : n < 10
    · simp [decAux, h]
    · simp only [decAux, if_neg h]
      rw [ih (n / 10) (decChar (n % 10) :: acc), ih (n / 10) [decChar (n % 10)]]
      simp

theorem decAux_fuel : ∀ n f1 f2, n < f1 → n < f2 → decAux f1 n [] = decAux f2 n [] := by
  intro n
  induction n using Nat.strong_induction_on with
  | _ n ih =>
    intro f1 f2 h1 h2
    obtain ⟨g1, rfl⟩ : ∃ g1, f1 = g1 + 1 := ⟨f1 - 1, by omega⟩
    obtain ⟨g2, rfl⟩ : ∃ g2, f2 = g2 + 1 := ⟨f2 - 1, by omega⟩
    by_cases h : n < 10
    · simp [decAux, h]
    · simp only [decAux, if_neg h]
      rw [decAux_append g1, decAux_append g2]
      have hd : n / 10 < n := Nat.div_lt_self (by omega) (by omega)
      rw [ih (n / 10) hd g1 g2 (by omega) (by omega)]

theorem decRepr_low (n : Nat) (h : n < 10) : decRepr n = [decChar n] := by
  unfold decRepr
  simp [decAux, h, Nat.mod_eq_of_lt h]

theorem decRepr_high (n : Nat) (h : 10 ≤ n) :
    decRepr n = decRepr (n / 10) ++ [decChar (n % 10)] := by
  have hd : n / 10 < n := Nat.div_lt_self (by omega) (by omega)
  unfold decRepr
  simp only [decAux, if_neg (by omega : ¬ n < 10)]
  rw [decAux_append]
  congr 1
  exact decAux_fuel (n / 10) n (n / 10 + 1) (by omega) (by omega)

theorem decChar_val (m : Nat) (h : m < 10) : (decChar m).toNat - 48 = m := by
  interval_cases m <;> decide

theorem decVala_decRepr : ∀ n a, decVala a (decRepr n) = a * 10 ^ (decRepr n).length + n := by
  intro n
  induction n using Nat.strong_induction_on with
  | _ n ih =>
    intro a
    by_cases h : n < 10
    · rw [decRepr_low n h]
      simp [decVala, decChar_val n h]
    · rw [decRepr_high n (by omega)]
      have hd : n / 10 < n := Nat.div_lt_self (by omega) (by omega)
      simp only [decVala, List.foldl_append, List.foldl_cons, List.foldl_nil]
      have hmod : (decChar (n % 10)).toNat - 48 = n % 10 :=
        decChar_val (n % 10) (Nat.mod_lt n (by omega))
      rw [show List.foldl (fun acc c => acc * 10 + (c.toNat - 48)) a (decRepr (n / 10))
            = decVala a (decRepr (n / 10)) from rfl]
      rw [ih (n / 10) hd a, hmod, List.length_append, List.length_singleton]
      rw [pow_succ]
      have := Nat.div_add_mod n 10
      generalize (10 : Nat) ^ (decRepr (n / 10)).length = P
      ring_nf
      omega

theorem decVala_zeros : ∀ k l, decVala 0 (List.replicate k '0' ++ l) = decVala 0 l := by
  intro k
  induction k with
  | zero => intro l; simp
  | succ k ih =>
    intro l
    rw [List.replicate_succ]
    simpa [decVala] using ih l

theorem pad3_inj {a b : Nat} (h : pad3 a = pad3 b) : a = b := by
  have hdata := congrArg String.data h
  simp only [pad3] at hdata
  have ha := decVala_zeros (3 - (decRepr a).length) (decRepr a)
  have hb := decVala_zeros (3 - (decRepr b).length) (decRepr b)
  have ha2 := decVala_decRepr a 0
  have hb2 := decVala_decRepr b 0
  simp only [Nat.zero_mul, Nat.zero_add] at ha2 hb2
  have : decVala 0 (List.replicate (3 - (decRepr a).length) '0' ++ decRepr a)
       = decVala 0 (List.replicate (3 - (decRepr b).length) '0' ++ decRepr b) := by
    rw [hdata]
  omega


/-- Claim C1: the spec says a row with zero classifiable tokens in a document of
a non-`eng_` subject is silently dropped.  The code instead dereferences
the `None` `code_word` (`col_to_grade(code_word["x0"])`, or
`code_word["text"]` for `"cdos"`) before ever reaching the dead guard
`if not code_word: continue`, so Python raises a `TypeError` and processing
aborts rather than continuing. -/
theorem c1_uncoded_row_crashes (subj : String) (data : List (String × Record))
    (row : List Word) (heng : startsWithEng subj = false)
    (hnone : row.find? (fun w => codeReMatch w.text) = none) :
    stepRow subj data row
      = Except.error "TypeError: NoneType object is not subscriptable" := by
  simp [stepRow, hnone, heng]

theorem c1_uncoded_row_crashes_witness :
    stepRow "mathematics" [] [{ text := "hello", x0 := 100, x1 := 120, top := 10 }]
      = Except.error "TypeError: NoneType object is not subscriptable" :=
  c1_uncoded_row_crashes "mathematics" [] [{ text := "hello", x0 := 100, x1 := 120, top := 10 }]
    (by decide) (by decide)

/-- Claim C5: the positional grade map is total: `BREAKS` is a fixed ascending
list of 10 breakpoints, `GRADES` holds the 11 band labels (PK, K, grades
1–8, high-school catch-all), every position `x` maps to the label indexed
by the first breakpoint strictly greater than `x`, and every `x ≥ 835`
maps to the catch-all label `"HSI"`. -/
theorem c5_positional_grade_total :
    BREAKS.length = 10 ∧ GRADES.length = 11 ∧ List.Chain' (· < ·) BREAKS ∧
    (∀ x : Rat, colToGrade x = GRADES.getD (BREAKS.findIdx fun br => decide (x < br)) "") ∧
    (∀ x : Rat, 835 ≤ x → colToGrade x = "HSI") := by
  refine ⟨by decide, by decide, by simp [BREAKS, List.chain'_cons]; norm_num, ?_, ?_⟩
  · intro x
    rcases lt_or_le x 180 with h1 | h1
    · simp [colToGrade, colToGradeGo, BREAKS, GRADES, List.findIdx_cons, h1]
    have n1 : ¬ x < (180 : Rat) := not_lt.mpr h1
    rcases lt_or_le x 270 with h2 | h2
    · simp [colToGrade, colToGradeGo, BREAKS, GRADES, List.findIdx_cons, n1, h2]
    have n2 : ¬ x < (270 : Rat) := not_lt.mpr h2
    rcases lt_or_le x 345 with h3 | h3
    · simp [colToGrade, colToGradeGo, BREAKS, GRADES, List.findIdx_cons, n1, n2, h3]
    have n3 : ¬ x < (345 : Rat) := not_lt.mpr h3
    rcases lt_or_le x 415 with h4 | h4
    · simp [colToGrade, colToGradeGo, BREAKS, GRADES, List.findIdx_cons, n1, n2, n3, h4]
    have n4 : ¬ x < (415 : Rat) := not_lt.mpr h4
    rcases lt_or_le x 485 with h5 | h5
    · simp [colToGrade, colToGradeGo, BREAKS, GRADES, List.findIdx_cons, n1, n2, n3, n4, h5]
    have n5 : ¬ x < (485 : Rat) := not_lt.mpr h5
    rcases lt_or_le x 555 with h6 | h6
    · simp [colToGrade, colToGradeGo, BREAKS, GRADES, List.findIdx_cons,
        n1, n2, n3, n4, n5, h6]
    have n6 : ¬ x < (555 : Rat) := not_lt.mpr h6
    rcases lt_or_le x 625 with h7 | h7
    · simp [colToGrade, colToGradeGo, BREAKS, GRADES, List.findIdx_cons,
        n1, n2, n3, n4, n5, n6, h7]
    have n7 : ¬ x < (625 : Rat) := not_lt.mpr h7
    rcases lt_or_le x 695 with h8 | h8
    · simp [colToGrade, colToGradeGo, BREAKS, GRADES, List.findIdx_cons,
        n1, n2, n3, n4, n5, n6, n7, h8]
    have n8 : ¬ x < (695 : Rat) := not_lt.mpr h8
    rcases lt_or_le x 765 with h9 | h9
    · simp [colToGrade, colToGradeGo, BREAKS, GRADES, List.findIdx_cons,
        n1, n2, n3, n4, n5, n6, n7, n8, h9]
    have n9 : ¬ x < (765 : Rat) := not_lt.mpr h9
    rcases lt_or_le x 835 with h10 | h10
    · simp [colToGrade, colToGradeGo, BREAKS, GRADES, List.findIdx_cons,
        n1, n2, n3, n4, n5, n6, n7, n8, n9, h10]
    have n10 : ¬ x < (835 : Rat) := not_lt.mpr h10
    simp [colToGrade, colToGradeGo, BREAKS, GRADES, List.findIdx_cons,
      n1, n2, n3, n4, n5, n6, n7, n8, n9, n10]
  · intro x hx
    have h180 : ¬ x < (180 : Rat) := by linarith
    have h270 : ¬ x < (270 : Rat) := by linarith
    have h345 : ¬ x < (345 : Rat) := by linarith
    have h415 : ¬ x < (415 : Rat) := by linarith
    have h485 : ¬ x < (485 : Rat) := by linarith
    have h555 : ¬ x < (555 : Rat) := by linarith
    have h625 : ¬ x < (625 : Rat) := by linarith
    have h695 : ¬ x < (695 : Rat) := by linarith
    have h765 : ¬ x < (765 : Rat) := by linarith
    have h835 : ¬ x < (835 : Rat) := by linarith
    simp [colToGrade, colToGradeGo, BREAKS, GRADES,
      h180, h270, h345, h415, h485, h555, h625, h695, h765, h835]

theorem c5_positional_grade_total_witness : colToGrade 900 = "HSI" :=
  c5_positional_grade_total.2.2.2.2 900 (by decide)

theorem isPfx_iff : ∀ (p l : List Char), isPfx p l = true ↔ ∃ t, l = p ++ t := by
  intro p
  induction p with
  | nil => intro l; simp [isPfx]
  | cons a ps ih =>
    intro l
    cases l with
    | nil => simp [isPfx]
    | cons c cs =>
      simp only [isPfx, Bool.and_eq_true, beq_iff_eq, ih, List.cons_append]
      constructor
      · rintro ⟨rfl, t, rfl⟩; exact ⟨t, rfl⟩
      · rintro ⟨t, ht⟩
        injection ht with h1 h2
        exact ⟨h1.symm, t, h2⟩

theorem inferGrade_cases (subj code fb : String) :
    (∃ s, inferGrade subj code fb = "Grade " ++ s) ∨ inferGrade subj code fb = fb := by
  unfold inferGrade
  split
  · exact Or.inl ⟨_, rfl⟩
  · split
    · exact Or.inl ⟨_, rfl⟩
    · split
      · exact Or.inl ⟨_, rfl⟩
      · exact Or.inr rfl

theorem grade_ne_empty (s : String) : ("Grade " ++ s) ≠ "" := by
  intro h
  have h2 := congrArg String.data h
  rw [String.data_append, show ("" : String).data = [] from rfl] at h2
  have h3 : "Grade ".data = [] := (List.append_eq_nil.mp h2).1
  exact absurd h3 (by decide)

/-- Claim C8 counterexample: the resolver returns the fallback unchanged, so an
empty fallback yields an empty grade label, contradicting the claim that
every triple of strings produces a non-empty label. -/
theorem c8_counterexample : inferGrade "dance" "x" "" = "" := by decide

/-- Claim C8 amended: the grade resolver is total (a Lean function) and returns a
non-empty label whenever the supplied fallback is non-empty; in general its
result is either an embedded-grade label or the fallback unchanged. -/
theorem c8_total_nonempty (subj code fb : String) (h : fb ≠ "") :
    inferGrade subj code fb ≠ "" := by
  rcases inferGrade_cases subj code fb with ⟨s, hs⟩ | hfb
  · rw [hs]; exact grade_ne_empty s
  · rw [hfb]; exact h

theorem c8_total_nonempty_witness : inferGrade "dance" "x" "FB" ≠ "" :=
  c8_total_nonempty "dance" "x" "FB" (by decide)

theorem searchNY_pos : ∀ (pre post : List Char) (d : Char), isDigitA d = true →
    ∃ ds, searchNY (pre ++ 'N' :: 'Y' :: '-' :: d :: post) = some ds := by
  intro pre
  induction pre with
  | nil =>
    intro post d hd
    exact ⟨d :: post.takeWhile isDigitA, by simp [searchNY, nyHere, hd]⟩
  | cons c pre ih =>
    intro post d hd
    obtain ⟨ds, hds⟩ := ih post d hd
    rw [List.cons_append]
    cases hn : nyHere (c :: (pre ++ 'N' :: 'Y' :: '-' :: d :: post)) with
    | some ds2 => exact ⟨ds2, by rw [searchNY, hn]⟩
    | none => exact ⟨ds, by rw [searchNY, hn]; exact hds⟩

theorem nyHere_digits {l : List Char} {ds : List Char} (h : nyHere l = some ds) :
    ds ≠ [] ∧ ds.all isDigitA = true := by
  unfold nyHere at h
  split at h
  case _ c1 c2 c3 d r =>
    split at h
    case isTrue hc =>
      obtain rfl : d :: r.takeWhile isDigitA = ds := Option.some.inj h
      simp only [Bool.and_eq_true] at hc
      refine ⟨by simp, ?_⟩
      simp only [List.all_eq_true]
      intro a ha
      rcases List.mem_cons.mp ha with rfl | ha2
      · exact hc.2
      · exact List.mem_takeWhile_imp ha2
    case isFalse => cases h
  case _ => cases h

theorem searchNY_digits : ∀ (l ds : List Char), searchNY l = some ds →
    ds ≠ [] ∧ ds.all isDigitA = true := by
  intro l
  induction l with
  | nil => intro ds h; simp [searchNY] at h
  | cons c rest ih =>
    intro ds h
    rw [searchNY] at h
    cases hn : nyHere (c :: rest) with
    | some ds2 =>
      rw [hn] at h
      obtain rfl : ds2 = ds := Option.some.inj h
      exact nyHere_digits hn
    | none =>
      rw [hn] at h
      exact ih ds h

/-- Claim C4: for the math/literacy subjects (`"mathematics"`, `"ela"`) and any
code text containing `NY-` followed by a digit, the resolver returns
`"Grade "` plus the digits captured by `re.search(r"NY-(\d+)", code)`,
independent of the fallback (and of any token position, which the resolver
never receives); in particular `"NY-3.W.2"` for subject `"ela"` resolves to
`"Grade 3"`. -/
theorem c4_embedded_grade :
    (∀ (subj code fb : String) (pre post : List Char) (d : Char),
      (subj = "mathematics" ∨ subj = "ela") →
      code.data = pre ++ 'N' :: 'Y' :: '-' :: d :: post →
      isDigitA d = true →
      ∃ ds, searchNY code.data = some ds ∧ ds ≠ [] ∧ ds.all isDigitA = true ∧
        inferGrade subj code fb = "Grade " ++ String.mk ds)
    ∧ (∀ fb, inferGrade "ela" "NY-3.W.2" fb = "Grade 3") := by
  constructor
  · intro subj code fb pre post d hsubj hdecomp hd
    have hsome : ∃ ds, searchNY code.data = some ds := by
      rw [hdecomp]; exact searchNY_pos pre post d hd
    obtain ⟨ds, hds⟩ := hsome
    have hprops := searchNY_digits code.data ds hds
    refine ⟨ds, hds, hprops.1, hprops.2, ?_⟩
    have hguard : (subj == "mathematics" || subj == "ela") = true := by
      rcases hsubj with rfl | rfl <;> decide
    simp [inferGrade, hguard, hds]
  · intro fb
    rfl

theorem c4_embedded_grade_witness :
    ∃ ds, searchNY "NY-12.ABC.4".data = some ds ∧ ds ≠ [] ∧ ds.all isDigitA = true ∧
      inferGrade "mathematics" "NY-12.ABC.4" "FB" = "Grade " ++ String.mk ds :=
  c4_embedded_grade.1 "mathematics" "NY-12.ABC.4" "FB" []
    ['2', '.', 'A', 'B', 'C', '.', '4'] '1' (Or.inl rfl) (by decide) (by decide)

theorem searchSS_pos : ∀ (pre post : List Char) (d : Char), isDigit19 d = true →
    ∃ e, searchSS (pre ++ 'S' :: 'S' :: '.' :: d :: post) = some e := by
  intro pre
  induction pre with
  | nil =>
    intro post d hd
    exact ⟨d, by simp [searchSS, ssHere, hd]⟩
  | cons c pre ih =>
    intro post d hd
    obtain ⟨e, he⟩ := ih post d hd
    rw [List.cons_append]
    cases hn : ssHere (c :: (pre ++ 'S' :: 'S' :: '.' :: d :: post)) with
    | some e2 => exact ⟨e2, by rw [searchSS, hn]⟩
    | none => exact ⟨e, by rw [searchSS, hn]; exact he⟩

theorem ssHere_digit {l : List Char} {d : Char} (h : ssHere l = some d) :
    isDigit19 d = true := by
  unfold ssHere at h
  split at h
  case _ c1 c2 c3 e r =>
    split at h
    case isTrue hc =>
      obtain rfl : e = d := Option.some.inj h
      simp only [Bool.and_eq_true] at hc
      exact hc.2
    case isFalse => cases h
  case _ => cases h

theorem searchSS_digit : ∀ (l : List Char) (d : Char), searchSS l = some d →
    isDigit19 d = true := by
  intro l
  induction l with
  | nil => intro d h; simp [searchSS] at h
  | cons c rest ih =>
    intro d h
    rw [searchSS] at h
    cases hn : ssHere (c :: rest) with
    | some e =>
      rw [hn] at h
      obtain rfl : e = d := Option.some.inj h
      exact ssHere_digit hn
    | none =>
      rw [hn] at h
      exact ih d h

/-- Claim C9: for a subject key starting with `"social_studies"`, a code text
containing `SS.` immediately followed by a digit 1–9 resolves to
`"Grade "` plus the single captured digit — `re.search(r"SS\.([1-9])", ·)`
captures exactly one digit, so further digits are ignored; in particular
`"SS.10"` resolves to `"Grade 1"` for every fallback, not `"Grade 10"` and
not the fallback. -/
theorem c9_social_studies_digit :
    (∀ (subj code fb : String) (pre post : List Char) (d : Char),
      isPfx socialChars subj.data = true →
      code.data = pre ++ 'S' :: 'S' :: '.' :: d :: post →
      isDigit19 d = true →
      ∃ e, searchSS code.data = some e ∧ isDigit19 e = true ∧
        inferGrade subj code fb = "Grade " ++ String.mk [e])
    ∧ (∀ fb, inferGrade "social_studies_hs" "SS.10" fb = "Grade 1")
    ∧ ("Grade 1" : String) ≠ "Grade 10" := by
  refine ⟨?_, fun fb => rfl, by decide⟩
  intro subj code fb pre post d hsoc hdecomp hd
  obtain ⟨t, ht⟩ := (isPfx_iff socialChars subj.data).mp hsoc
  have hsome : ∃ e, searchSS code.data = some e := by
    rw [hdecomp]; exact searchSS_pos pre post d hd
  obtain ⟨e, he⟩ := hsome
  refine ⟨e, he, searchSS_digit code.data e he, ?_⟩
  have hm : (subj == "mathematics") = false := by
    apply beq_eq_false_iff_ne.mpr
    intro hsub
    rw [hsub] at ht
    have h3 : ("mathematics".data).head? = some 's' := by rw [ht]; rfl
    exact absurd h3 (by decide)
  have hela : (subj == "ela") = false := by
    apply beq_eq_false_iff_ne.mpr
    intro hsub
    rw [hsub] at ht
    have h3 : ("ela".data).head? = some 's' := by rw [ht]; rfl
    exact absurd h3 (by decide)
  have hsci : (subj == "science") = false := by
    apply beq_eq_false_iff_ne.mpr
    intro hsub
    rw [hsub] at ht
    have h3 : ("science".data).take 2 = ['s', 'o'] := by rw [ht]; rfl
    exact absurd h3 (by decide)
  simp [inferGrade, hm, hela, hsci, hsoc, he]

theorem c9_social_studies_digit_witness :
    ∃ e, searchSS "SS.10".data = some e ∧ isDigit19 e = true ∧
      inferGrade "social_studies_k8" "SS.10" "FB" = "Grade " ++ String.mk [e] :=
  c9_social_studies_digit.1 "social_studies_k8" "SS.10" "FB" [] ['0'] '1'
    (by decide) (by decide) (by decide)

/-- Claim C3: when a code token is recognized in a row whose tokens all satisfy
`x0 < x1`, the record's description is the trimmed space-join of exactly
the tokens whose left edge exceeds the code's right edge; consequently no
token with right edge at or below the code's right edge contributes, the
code token itself never contributes, and the description is empty when no
token lies strictly right of the code. -/
theorem c3_description_right_of_code (subj : String) (data : List (String × Record))
    (row : List Word) (w : Word)
    (hfind : row.find? (fun u => codeReMatch u.text) = some w)
    (hwide : ∀ u ∈ row, u.x0 < u.x1) :
    ∃ lab rec, stepRow subj data row = Except.ok (data ++ [(lab, rec)]) ∧
      rec.description
        = trimPy (String.intercalate " "
            ((row.filter (fun u => decide (w.x1 < u.x0))).map (fun u => u.text))) ∧
      (∀ u ∈ row, u.x1 ≤ w.x1 → u ∉ row.filter (fun u => decide (w.x1 < u.x0))) ∧
      w ∉ row.filter (fun u => decide (w.x1 < u.x0)) ∧
      (row.filter (fun u => decide (w.x1 < u.x0)) = [] → rec.description = "") := by
  refine ⟨inferGrade subj w.text (if subj == "cdos" then "K-12" else colToGrade w.x0),
    { code := w.text, description := joinDescr w.x1 row }, ?_, rfl, ?_, ?_, ?_⟩
  · simp [stepRow, hfind]
  · intro u hu hle hmem
    have h2 := (List.mem_filter.mp hmem).2
    have h3 : w.x1 < u.x0 := of_decide_eq_true h2
    have h4 : u.x0 < u.x1 := hwide u hu
    linarith
  · intro hmem
    have h2 := (List.mem_filter.mp hmem).2
    have h3 : w.x1 < w.x0 := of_decide_eq_true h2
    have h4 : w.x0 < w.x1 := hwide w (List.mem_of_find?_eq_some hfind)
    linarith
  · intro hempty
    simp [joinDescr, hempty]
    rfl

theorem c3_description_right_of_code_witness :
    ∃ lab rec, stepRow "music" [] rowC3 = Except.ok ([] ++ [(lab, rec)]) ∧
      rec.description
        = trimPy (String.intercalate " "
            ((rowC3.filter (fun u => decide (wordC3.x1 < u.x0))).map (fun u => u.text))) ∧
      (∀ u ∈ rowC3, u.x1 ≤ wordC3.x1 →
        u ∉ rowC3.filter (fun u => decide (wordC3.x1 < u.x0))) ∧
      wordC3 ∉ rowC3.filter (fun u => decide (wordC3.x1 < u.x0)) ∧
      (rowC3.filter (fun u => decide (wordC3.x1 < u.x0)) = [] → rec.description = "") :=
  c3_description_right_of_code "music" [] rowC3 wordC3 (by decide) (by decide)

theorem splitOnU_ne_nil : ∀ l : List Char, splitOnU l ≠ [] := by
  intro l
  induction l with
  | nil => simp [splitOnU]
  | cons c rest ih =>
    by_cases h : c == '_'
    · simp [splitOnU, h]
    · simp only [splitOnU, h, Bool.false_eq_true, if_false]
      cases hs : splitOnU rest with
      | nil => exact absurd hs ih
      | cons p ps => simp

theorem splitOnU_eng (t : List Char) :
    splitOnU ('e' :: 'n' :: 'g' :: '_' :: t) = ['e', 'n', 'g'] :: splitOnU t := by
  have h1 : splitOnU ('_' :: t) = [] :: splitOnU t := by simp [splitOnU]
  have h2 : splitOnU ('g' :: '_' :: t) = ['g'] :: splitOnU t := by
    rw [splitOnU]
    simp [h1]
  have h3 : splitOnU ('n' :: 'g' :: '_' :: t) = ['n', 'g'] :: splitOnU t := by
    rw [splitOnU]
    simp [h2]
  rw [splitOnU]
  simp [h3]

theorem tagOf_eng (subj : String) (heng : startsWithEng subj = true) :
    ∃ tag, tagOfOpt subj = some tag := by
  obtain ⟨t, ht⟩ := (isPfx_iff _ _).mp heng
  unfold tagOfOpt
  rw [ht]
  simp only [List.cons_append, List.nil_append]
  rw [splitOnU_eng]
  cases hs : splitOnU t with
  | nil => exact absurd hs (splitOnU_ne_nil t)
  | cons p ps => exact ⟨_, rfl⟩

/-- Claim C10: a fabricated surrogate code word carries `x0 = x1 = 0`, so the
surrogate record's description is the trimmed space-join of every row token
whose left edge is strictly positive; when every token of the row has a
positive left edge this is the entire row text, including tokens left of
any real code column. -/
theorem c10_surrogate_description (subj : String) (data : List (String × Record))
    (row : List Word)
    (heng : startsWithEng subj = true)
    (hnone : row.find? (fun w => codeReMatch w.text) = none) :
    ∃ tag rec, tagOfOpt subj = some tag ∧
      stepRow subj data row = Except.ok (data ++ [(ksOf subj, rec)]) ∧
      rec.description
        = trimPy (String.intercalate " "
            ((row.filter (fun u => decide ((0 : Rat) < u.x0))).map (fun u => u.text))) ∧
      ((∀ u ∈ row, (0 : Rat) < u.x0) →
        rec.description = trimPy (String.intercalate " " (row.map (fun u => u.text)))) := by
  obtain ⟨tag, htag⟩ := tagOf_eng subj heng
  refine ⟨tag,
    { code := ksOf subj ++ "-" ++ tag ++ "-"
        ++ pad3 ((data.filter (fun p => p.1 == ksOf subj)).length + 1),
      description := joinDescr 0 row }, htag, ?_, rfl, ?_⟩
  · simp [stepRow, hnone, heng, htag]
  · intro hall
    have hfil : row.filter (fun u => decide ((0 : Rat) < u.x0)) = row :=
      List.filter_eq_self.mpr (fun u hu => decide_eq_true (hall u hu))
    show joinDescr 0 row = _
    rw [joinDescr, hfil]

theorem c10_surrogate_description_witness :
    ∃ tag rec, tagOfOpt "eng_science_primary" = some tag ∧
      stepRow "eng_science_primary" []
          [{ text := "All", x0 := 5, x1 := 9, top := 3 },
           { text := "cells", x0 := 12, x1 := 20, top := 3 }]
        = Except.ok ([] ++ [(ksOf "eng_science_primary", rec)]) ∧
      rec.description
        = trimPy (String.intercalate " "
            (([{ text := "All", x0 := 5, x1 := 9, top := 3 },
               { text := "cells", x0 := 12, x1 := 20, top := 3 }] : List Word).filter
                (fun u => decide ((0 : Rat) < u.x0)) |>.map (fun u => u.text))) ∧
      ((∀ u ∈ ([{ text := "All", x0 := 5, x1 := 9, top := 3 },
                { text := "cells", x0 := 12, x1 := 20, top := 3 }] : List Word),
          (0 : Rat) < u.x0) →
        rec.description
          = trimPy (String.intercalate " "
              (([{ text := "All", x0 := 5, x1 := 9, top := 3 },
                 { text := "cells", x0 := 12, x1 := 20, top := 3 }] : List Word).map
                  (fun u => u.text)))) :=
  c10_surrogate_description "eng_science_primary" []
    [{ text := "All", x0 := 5, x1 := 9, top := 3 },
     { text := "cells", x0 := 12, x1 := 20, top := 3 }]
    (by decide) (by decide)

theorem space_beq_left (c x : Char) (hc : isSpacePy c = true) (hx : isSpacePy x = false) :
    (c == x) = false := by
  apply beq_eq_false_iff_ne.mpr
  intro h
  rw [h, hx] at hc
  cases hc

theorem space_beq_right (c x : Char) (hc : isSpacePy c = true) (hx : isSpacePy x = false) :
    (x == c) = false := by
  apply beq_eq_false_iff_ne.mpr
  intro h
  rw [← h, hx] at hc
  cases hc

theorem space_not_dmtva (c : Char) (hc : isSpacePy c = true) : inDMTVA c = false := by
  simp only [inDMTVA]
  rw [space_beq_left c 'D' hc (by decide), space_beq_left c 'M' hc (by decide),
    space_beq_left c 'T' hc (by decide), space_beq_left c 'V' hc (by decide),
    space_beq_left c 'A' hc (by decide)]
  rfl

theorem artsMatch_space : ∀ l : List Char, (∀ c ∈ l, isSpacePy c = true) →
    artsMatch l = false := by
  intro l hl
  rcases l with _ | ⟨c1, _ | ⟨c2, _ | ⟨c3, _ | ⟨u, rest⟩⟩⟩⟩
  · rfl
  · rfl
  · rfl
  · rfl
  · simp [artsMatch, space_not_dmtva c1 (hl c1 (by simp))]

theorem cdosMatch_space : ∀ l : List Char, (∀ c ∈ l, isSpacePy c = true) →
    cdosMatch l = false := by
  intro l hl
  rcases l with _ | ⟨c1, _ | ⟨c2, _ | ⟨c3, _ | ⟨c4, rest⟩⟩⟩⟩
  · rfl
  · rfl
  · rfl
  · rfl
  · simp [cdosMatch, space_beq_left c1 'C' (hl c1 (by simp)) (by decide)]

theorem nyMatch_space : ∀ l : List Char, (∀ c ∈ l, isSpacePy c = true) →
    nyMatch l = false := by
  intro l hl
  rcases l with _ | ⟨c1, _ | ⟨c2, _ | ⟨c3, rest⟩⟩⟩
  · rfl
  · rfl
  · rfl
  · simp [nyMatch, space_beq_left c1 'N' (hl c1 (by simp)) (by decide)]

theorem nysslsMatch_space : ∀ l : List Char, (∀ c ∈ l, isSpacePy c = true) →
    nysslsMatch l = false := by
  intro l hl
  rcases l with _ | ⟨c1, rest⟩
  · rfl
  · simp [nysslsMatch, isPfx, space_beq_right c1 'N' (hl c1 (by simp)) (by decide)]

theorem ssMatch_space : ∀ l : List Char, (∀ c ∈ l, isSpacePy c = true) →
    ssMatch l = false := by
  intro l hl
  rcases l with _ | ⟨c1, _ | ⟨c2, _ | ⟨c3, rest⟩⟩⟩
  · rfl
  · rfl
  · rfl
  · simp [ssMatch, space_beq_left c1 'S' (hl c1 (by simp)) (by decide)]

theorem wlMatch_space : ∀ l : List Char, (∀ c ∈ l, isSpacePy c = true) →
    wlMatch l = false := by
  intro l hl
  rcases l with _ | ⟨c1, _ | ⟨c2, _ | ⟨c3, rest⟩⟩⟩
  · rfl
  · rfl
  · rfl
  · simp [wlMatch, space_beq_left c1 'W' (hl c1 (by simp)) (by decide)]

theorem altFull_space : ∀ l : List Char, (∀ c ∈ l, isSpacePy c = true) →
    altFull l = false := by
  intro l hl
  rw [altFull, artsMatch_space l hl, cdosMatch_space l hl, nyMatch_space l hl,
    nysslsMatch_space l hl, ssMatch_space l hl, wlMatch_space l hl]
  rfl

/-- Claim C6 counterexample: the classifier accepts `"SS.1\n"` although no
family pattern matches that entire token text — Python's `$` matches just
before the trailing newline, so `CODE_RE.match` succeeds on a proper
substring of the text. -/
theorem c6_counterexample :
    codeReMatch "SS.1\n" = true ∧ altFull "SS.1\n".data = false := by
  constructor <;> decide

/-- Claim C6 amended: the classifier matches exactly when one of the six family
patterns (ordered alternation `altFull`) matches the entire token text or
the entire text less a single trailing newline (Python `$` semantics);
empty or whitespace-only token text never matches. -/
theorem c6_classifier_amended :
    (∀ s : String, codeReMatch s = true ↔
      (altFull s.data = true ∨ ∃ t, s.data = t ++ ['\n'] ∧ altFull t = true)) ∧
    codeReMatch "" = false ∧
    (∀ s : String, (∀ c ∈ s.data, isSpacePy c = true) → codeReMatch s = false) := by
  refine ⟨?_, by decide, ?_⟩
  · intro s
    unfold codeReMatch
    rcases List.eq_nil_or_concat s.data with hnil | ⟨t, a, hcat⟩
    · rw [hnil]
      constructor
      · intro h
        exact absurd h (by decide)
      · rintro (h | ⟨t, ht, h⟩)
        · exact absurd h (by decide)
        · exact absurd ht (by simp)
    · rw [List.concat_eq_append] at hcat
      rw [hcat, List.getLast?_concat, List.dropLast_concat]
      by_cases ha : a = '\n'
      · subst ha
        show (altFull (t ++ ['\n']) || ('\n' == '\n' && altFull t)) = true ↔ _
        simp only [beq_self_eq_true, Bool.true_and]
        constructor
        · intro h
          simp only [Bool.or_eq_true] at h
          rcases h with h1 | h2
          · exact Or.inl h1
          · exact Or.inr ⟨t, rfl, h2⟩
        · rintro (h1 | ⟨t2, ht2, h2⟩)
          · simp [h1]
          · have heq : t = t2 := List.append_cancel_right ht2
            subst heq
            simp [h2]
      · have ha2 : (a == '\n') = false := beq_eq_false_iff_ne.mpr ha
        show (altFull (t ++ [a]) || (a == '\n' && altFull t)) = true ↔ _
        rw [ha2]
        simp only [Bool.false_and, Bool.or_false]
        constructor
        · intro h
          exact Or.inl h
        · rintro (h1 | ⟨t2, ht2, h2⟩)
          · exact h1
          · have hlast := congrArg List.getLast? ht2
            rw [List.getLast?_concat, List.getLast?_concat] at hlast
            exact absurd (Option.some.inj hlast) ha
  · intro s hs
    unfold codeReMatch
    rw [altFull_space s.data hs]
    cases hlast : s.data.getLast? with
    | none => rfl
    | some c =>
      show (false || (c == '\n' && altFull s.data.dropLast)) = false
      rw [altFull_space s.data.dropLast
        (fun x hx => hs x (List.Sublist.subset (List.dropLast_sublist _) hx))]
      simp

theorem c6_classifier_amended_witness : codeReMatch " " = false :=
  c6_classifier_amended.2.2 " " (by decide)

theorem listLe_total : ∀ a b : List Char, listLe a b = true ∨ listLe b a = true := by
  intro a
  induction a with
  | nil => intro b; exact Or.inl rfl
  | cons x xs ih =>
    intro b
    cases b with
    | nil => exact Or.inr rfl
    | cons y ys =>
      by_cases h1 : x.toNat < y.toNat
      · left; simp [listLe, h1]
      · by_cases h2 : y.toNat < x.toNat
        · right; simp [listLe, h2]
        · rcases ih ys with h | h
          · left; simp [listLe, h1, h2, h]
          · right; simp [listLe, h1, h2, h]

theorem listLe_trans : ∀ a b c : List Char, listLe a b = true → listLe b c = true →
    listLe a c = true := by
  intro a
  induction a with
  | nil => intro b c _ _; rfl
  | cons x xs ih =>
    intro b c hab hbc
    cases b with
    | nil => simp [listLe] at hab
    | cons y ys =>
      cases c with
      | nil => simp [listLe] at hbc
      | cons z zs =>
        have hxy : x.toNat < y.toNat
            ∨ (¬ x.toNat < y.toNat ∧ ¬ y.toNat < x.toNat ∧ listLe xs ys = true) := by
          by_cases h1 : x.toNat < y.toNat
          · exact Or.inl h1
          · by_cases h2 : y.toNat < x.toNat
            · simp [listLe, h1, h2] at hab
            · exact Or.inr ⟨h1, h2, by simpa [listLe, h1, h2] using hab⟩
        have hyz : y.toNat < z.toNat
            ∨ (¬ y.toNat < z.toNat ∧ ¬ z.toNat < y.toNat ∧ listLe ys zs = true) := by
          by_cases h1 : y.toNat < z.toNat
          · exact Or.inl h1
          · by_cases h2 : z.toNat < y.toNat
            · simp [listLe, h1, h2] at hbc
            · exact Or.inr ⟨h1, h2, by simpa [listLe, h1, h2] using hbc⟩
        rcases hxy with hxy | ⟨hxy1, hxy2, hxy3⟩ <;>
          rcases hyz with hyz | ⟨hyz1, hyz2, hyz3⟩
        · simp [listLe, show x.toNat < z.toNat by omega]
        · simp [listLe, show x.toNat < z.toNat by omega]
        · simp [listLe, show x.toNat < z.toNat by omega]
        · have hne1 : ¬ x.toNat < z.toNat := by omega
          have hne2 : ¬ z.toNat < x.toNat := by omega
          simp only [listLe, if_neg hne1, if_neg hne2]
          exact ih ys zs hxy3 hyz3

theorem insRec_perm (x : Record) : ∀ l : List Record, List.Perm (insRec x l) (x :: l) := by
  intro l
  induction l with
  | nil => simp [insRec]
  | cons y ys ih =>
    by_cases h : codeLe y x = true
    · simp only [insRec, h, if_true]
      exact (List.Perm.cons y ih).trans (List.Perm.swap x y ys)
    · simp [insRec, h]

theorem insRec_sorted (x : Record) : ∀ l : List Record,
    List.Pairwise (fun a b => codeLe a b = true) l →
    List.Pairwise (fun a b => codeLe a b = true) (insRec x l) := by
  intro l
  induction l with
  | nil => intro _; simp [insRec]
  | cons y ys ih =>
    intro hp
    rcases List.pairwise_cons.mp hp with ⟨hy, hys⟩
    by_cases h : codeLe y x = true
    · simp only [insRec, h, if_true]
      apply List.pairwise_cons.mpr
      refine ⟨?_, ih hys⟩
      intro b hb
      have hmem : b ∈ x :: ys := (insRec_perm x ys).mem_iff.mp hb
      rcases List.mem_cons.mp hmem with rfl | hbys
      · exact h
      · exact hy b hbys
    · have hxy : codeLe x y = true := by
        rcases listLe_total x.code.data y.code.data with ht | ht
        · exact ht
        · exact absurd ht h
      simp only [insRec, h, if_false]
      apply List.pairwise_cons.mpr
      refine ⟨?_, hp⟩
      intro b hb
      rcases List.mem_cons.mp hb with rfl | hbys
      · exact hxy
      · exact listLe_trans x.code.data y.code.data b.code.data hxy (hy b hbys)

theorem sortFold_perm : ∀ (l acc : List Record),
    List.Perm (l.foldl (fun acc x => insRec x acc) acc) (acc ++ l) := by
  intro l
  induction l with
  | nil => intro acc; simp
  | cons x xs ih =>
    intro acc
    simp only [List.foldl_cons]
    refine ((ih (insRec x acc)).trans ?_)
    refine ((insRec_perm x acc).append_right xs).trans ?_
    exact (List.perm_middle).symm

theorem sortFold_sorted : ∀ (l acc : List Record),
    List.Pairwise (fun a b => codeLe a b = true) acc →
    List.Pairwise (fun a b => codeLe a b = true)
      (l.foldl (fun acc x => insRec x acc) acc) := by
  intro l
  induction l with
  | nil => intro acc h; simpa using h
  | cons x xs ih =>
    intro acc h
    simp only [List.foldl_cons]
    exact ih (insRec x acc) (insRec_sorted x acc h)

theorem sortRecords_perm (l : List Record) : List.Perm (sortRecords l) l := by
  simpa [sortRecords] using sortFold_perm l []

theorem sortRecords_sorted (l : List Record) :
    List.Pairwise (fun a b => codeLe a b = true) (sortRecords l) :=
  sortFold_sorted l [] List.Pairwise.nil

/-- Claim C7: whenever `extract` completes, every grade group in its output is
the records accumulated for that key, stably sorted non-decreasing by the
`code` field under plain lexicographic code-point comparison — a
permutation of the group, so nothing is deduplicated within or across
groups; the instance shows the non-numeric-aware order: code `"10"` sorts
before `"2"`. -/
theorem c7_sorted_groups :
    (∀ (subj : String) (rows : List (List Word)) (log : List (String × Record)),
      runRows subj rows [] = Except.ok log →
      extract subj rows = Except.ok (finishData log) ∧
      ∀ p ∈ finishData log,
        List.Pairwise (fun a b : Record => codeLe a b = true) p.2 ∧
        List.Perm p.2 (recsFor log p.1))
    ∧ sortRecords [{ code := "2", description := "x" }, { code := "10", description := "y" }]
        = [{ code := "10", description := "y" }, { code := "2", description := "x" }] := by
  constructor
  · intro subj rows log hrun
    constructor
    · simp [extract, hrun, Except.map]
    · intro p hp
      obtain ⟨g, hg, hgp⟩ := List.mem_map.mp hp
      cases hgp
      exact ⟨sortRecords_sorted _, sortRecords_perm _⟩
  · decide

theorem c7_sorted_groups_witness :
    extract "mathematics" [] = Except.ok (finishData []) ∧
    ∀ p ∈ finishData ([] : List (String × Record)),
      List.Pairwise (fun a b : Record => codeLe a b = true) p.2 ∧
      List.Perm p.2 (recsFor [] p.1) :=
  c7_sorted_groups.1 "mathematics" [] [] rfl

theorem pad3_data_inj {a b : Nat} (h : (pad3 a).data = (pad3 b).data) : a = b := by
  simp only [pad3] at h
  have ha := decVala_zeros (3 - (decRepr a).length) (decRepr a)
  have hb := decVala_zeros (3 - (decRepr b).length) (decRepr b)
  have ha2 := decVala_decRepr a 0
  have hb2 := decVala_decRepr b 0
  simp only [Nat.zero_mul, Nat.zero_add] at ha2 hb2
  have hv : decVala 0 (List.replicate (3 - (decRepr a).length) '0' ++ decRepr a)
       = decVala 0 (List.replicate (3 - (decRepr b).length) '0' ++ decRepr b) := by
    rw [h]
  omega

theorem colToGradeGo_mem (x : Rat) : ∀ (bs : List Rat) (gs : List String),
    (∀ g ∈ gs, g ∈ GRADES) → colToGradeGo x bs gs ∈ GRADES := by
  intro bs
  induction bs with
  | nil => intro gs _; cases gs <;> simp [colToGradeGo] <;> decide
  | cons b bs ih =>
    intro gs hgs
    cases gs with
    | nil => simp [colToGradeGo]; decide
    | cons g gs =>
      simp only [colToGradeGo]
      by_cases h : x < b
      · simp only [if_pos h]
        exact hgs g (by simp)
      · simp only [if_neg h]
        exact ih gs (fun g2 hg2 => hgs g2 (by simp [hg2]))

theorem colToGrade_mem (x : Rat) : colToGrade x ∈ GRADES :=
  colToGradeGo_mem x BREAKS GRADES (fun _ hg => hg)

theorem ksOf_cases (s : String) :
    ksOf s = "KS1-2" ∨ ksOf s = "KS3" ∨ ksOf s = "KS4" ∨ ksOf s = "KS?" := by
  unfold ksOf
  split_ifs <;> simp

theorem colToGrade_ne_ks (x : Rat) (subj : String) : colToGrade x ≠ ksOf subj := by
  have hm := colToGrade_mem x
  rcases ksOf_cases subj with h | h | h | h <;> rw [h] <;>
    (intro he; rw [he] at hm; revert hm; decide)

theorem startsWithEng_decomp (subj : String) (heng : startsWithEng subj = true) :
    ∃ t, subj.data = 'e' :: 'n' :: 'g' :: '_' :: t := by
  obtain ⟨t, ht⟩ := (isPfx_iff _ _).mp heng
  exact ⟨t, by simpa using ht⟩

theorem inferGrade_eng (subj : String) (heng : startsWithEng subj = true) (c fb : String) :
    inferGrade subj c fb = fb := by
  obtain ⟨t, ht⟩ := startsWithEng_decomp subj heng
  have hm : (subj == "mathematics") = false := by
    apply beq_eq_false_iff_ne.mpr
    intro hsub
    rw [hsub] at ht
    have h3 : ("mathematics".data).head? = some 'e' := by rw [ht]; rfl
    exact absurd h3 (by decide)
  have hela : (subj == "ela") = false := by
    apply beq_eq_false_iff_ne.mpr
    intro hsub
    rw [hsub] at ht
    have h3 : ("ela".data).take 2 = ['e', 'n'] := by rw [ht]; rfl
    exact absurd h3 (by decide)
  have hsci : (subj == "science") = false := by
    apply beq_eq_false_iff_ne.mpr
    intro hsub
    rw [hsub] at ht
    have h3 : ("science".data).head? = some 'e' := by rw [ht]; rfl
    exact absurd h3 (by decide)
  have hsoc : isPfx socialChars subj.data = false := by
    cases hval : isPfx socialChars subj.data
    · rfl
    · obtain ⟨t2, ht2⟩ := (isPfx_iff _ _).mp hval
      rw [ht] at ht2
      have h3 := congrArg List.head? ht2
      simp [socialChars] at h3
  simp [inferGrade, hm, hela, hsci, hsoc]

theorem eng_ne_cdos (subj : String) (heng : startsWithEng subj = true) :
    (subj == "cdos") = false := by
  obtain ⟨t, ht⟩ := startsWithEng_decomp subj heng
  apply beq_eq_false_iff_ne.mpr
  intro hsub
  rw [hsub] at ht
  have h3 : ("cdos".data).head? = some 'e' := by rw [ht]; rfl
  exact absurd h3 (by decide)

theorem stepRow_eng_coded (subj : String) (data : List (String × Record))
    (row : List Word) (w : Word) (heng : startsWithEng subj = true)
    (hfind : row.find? (fun u => codeReMatch u.text) = some w) :
    stepRow subj data row = Except.ok (data ++
      [(colToGrade w.x0, { code := w.text, description := joinDescr w.x1 row })]) := by
  simp [stepRow, hfind, eng_ne_cdos subj heng, inferGrade_eng subj heng]

theorem stepRow_eng_uncoded (subj : String) (data : List (String × Record))
    (row : List Word) (tag : String) (heng : startsWithEng subj = true)
    (htag : tagOfOpt subj = some tag)
    (hnone : row.find? (fun u => codeReMatch u.text) = none) :
    stepRow subj data row = Except.ok (data ++
      [(ksOf subj,
        { code := ksOf subj ++ "-" ++ tag ++ "-"
            ++ pad3 ((recsFor data (ksOf subj)).length + 1),
          description := joinDescr 0 row })]) := by
  have hlen : (data.filter (fun p => p.1 == ksOf subj)).length
      = (recsFor data (ksOf subj)).length := by simp [recsFor]
  simp [stepRow, hnone, heng, htag, hlen]

theorem recsFor_append_one (data : List (String × Record)) (g g2 : String) (r : Record) :
    recsFor (data ++ [(g2, r)]) g
      = if (g2 == g) = true then recsFor data g ++ [r] else recsFor data g := by
  by_cases h : (g2 == g) = true
  · simp [recsFor, List.filter_append, List.filter, h]
  · simp only [Bool.not_eq_true] at h
    simp [recsFor, List.filter_append, List.filter, h]

theorem runRows_eng_inv (subj : String) (heng : startsWithEng subj = true)
    (tag : String) (htag : tagOfOpt subj = some tag) :
    ∀ (rows : List (List Word)) (data : List (String × Record)),
      (∀ i (hi : i < (recsFor data (ksOf subj)).length),
        ((recsFor data (ksOf subj))[i]).code
          = ksOf subj ++ "-" ++ tag ++ "-" ++ pad3 (i + 1)) →
      ∃ log, runRows subj rows data = Except.ok log ∧
        (∀ i (hi : i < (recsFor log (ksOf subj)).length),
          ((recsFor log (ksOf subj))[i]).code
            = ksOf subj ++ "-" ++ tag ++ "-" ++ pad3 (i + 1)) := by
  intro rows
  induction rows with
  | nil => intro data hinv; exact ⟨data, rfl, hinv⟩
  | cons row rest ih =>
    intro data hinv
    cases hfind : row.find? (fun u => codeReMatch u.text) with
    | some w =>
      have hstep := stepRow_eng_coded subj data row w heng hfind
      have hne : (colToGrade w.x0 == ksOf subj) = false :=
        beq_eq_false_iff_ne.mpr (colToGrade_ne_ks w.x0 subj)
      have hrecs : recsFor (data ++
          [(colToGrade w.x0, { code := w.text, description := joinDescr w.x1 row })])
            (ksOf subj) = recsFor data (ksOf subj) := by
        rw [recsFor_append_one]
        simp [hne]
      obtain ⟨log, hrun, hlog⟩ := ih (data ++
        [(colToGrade w.x0, { code := w.text, description := joinDescr w.x1 row })])
        (by rw [hrecs]; exact hinv)
      refine ⟨log, ?_, hlog⟩
      simp only [runRows, hstep]
      exact hrun
    | none =>
      have hstep := stepRow_eng_uncoded subj data row tag heng htag hfind
      set n := (recsFor data (ksOf subj)).length with hn
      set rec : Record :=
        { code := ksOf subj ++ "-" ++ tag ++ "-" ++ pad3 (n + 1),
          description := joinDescr 0 row } with hrec
      have hrecs : recsFor (data ++ [(ksOf subj, rec)]) (ksOf subj)
          = recsFor data (ksOf subj) ++ [rec] := by
        rw [recsFor_append_one]
        simp
      have hinv2 : ∀ i (hi : i < (recsFor (data ++ [(ksOf subj, rec)]) (ksOf subj)).length),
          ((recsFor (data ++ [(ksOf subj, rec)]) (ksOf subj))[i]).code
            = ksOf subj ++ "-" ++ tag ++ "-" ++ pad3 (i + 1) := by
        intro i hi
        simp only [hrecs] at hi ⊢
        rw [List.length_append, List.length_singleton] at hi
        by_cases hlt : i < n
        · rw [List.getElem_append_left hlt]
          exact hinv i hlt
        · have hie : i = n := by omega
          subst hie
          rw [List.getElem_append_right (by omega)]
          simp
      obtain ⟨log, hrun, hlog⟩ := ih (data ++ [(ksOf subj, rec)]) hinv2
      refine ⟨log, ?_, hlog⟩
      simp only [runRows, hstep]
      exact hrun

/-- Claim C2: for every document of an uncoded (`eng_`) subject, processing
never fails, and the records accumulated under the document's band label
carry codes of the form `<band>-<tag>-<sequence>` whose zero-padded
3-digit-minimum sequence is dense, 1-based and strictly increasing in
fabrication order (001, 002, 003, ...); all these codes are pairwise
distinct, and each fabricated record sits under the band as its grade
label.  In particular three consecutive fabricated rows of the
`"_primary"`-suffixed key `"eng_english_primary"` yield codes
`KS1-2-EN-001`, `KS1-2-EN-002`, `KS1-2-EN-003` under grade label
`KS1-2`. -/
theorem c2_surrogate_codes :
    (∀ (subj : String) (rows : List (List Word)), startsWithEng subj = true →
      ∃ log tag, runRows subj rows [] = Except.ok log ∧ tagOfOpt subj = some tag ∧
        (∀ i (hi : i < (recsFor log (ksOf subj)).length),
          ((recsFor log (ksOf subj))[i]).code
            = ksOf subj ++ "-" ++ tag ++ "-" ++ pad3 (i + 1)) ∧
        ((recsFor log (ksOf subj)).map (fun r => r.code)).Nodup)
    ∧ extract "eng_english_primary"
        [[{ text := "The", x0 := 10, x1 := 20, top := 1 }],
         [{ text := "quick", x0 := 10, x1 := 25, top := 2 }],
         [{ text := "fox", x0 := 10, x1 := 19, top := 3 }]]
      = Except.ok [("KS1-2",
          [{ code := "KS1-2-EN-001", description := "The" },
           { code := "KS1-2-EN-002", description := "quick" },
           { code := "KS1-2-EN-003", description := "fox" }])] := by
  constructor
  · intro subj rows heng
    obtain ⟨tag, htag⟩ := tagOf_eng subj heng
    obtain ⟨log, hrun, hinv⟩ := runRows_eng_inv subj heng tag htag rows []
      (by intro i hi; simp [recsFor] at hi)
    refine ⟨log, tag, hrun, htag, hinv, ?_⟩
    show List.Pairwise (· ≠ ·) _
    apply List.pairwise_iff_getElem.mpr
    intro i j hi hj hij
    rw [List.length_map] at hi hj
    rw [List.getElem_map, List.getElem_map, hinv i hi, hinv j hj]
    intro heq
    have hdata := congrArg String.data heq
    simp only [String.data_append] at hdata
    have hpad : (pad3 (i + 1)).data = (pad3 (j + 1)).data :=
      List.append_cancel_left hdata
    have := pad3_data_inj hpad
    omega
  · rfl

theorem c2_surrogate_codes_witness :
    ∃ log tag,
      runRows "eng_english_primary" [[{ text := "The", x0 := 10, x1 := 20, top := 1 }]] []
        = Except.ok log ∧
      tagOfOpt "eng_english_primary" = some tag ∧
      (∀ i (hi : i < (recsFor log (ksOf "eng_english_primary")).length),
        ((recsFor log (ksOf "eng_english_primary"))[i]).code
          = ksOf "eng_english_primary" ++ "-" ++ tag ++ "-" ++ pad3 (i + 1)) ∧
      ((recsFor log (ksOf "eng_english_primary")).map (fun r => r.code)).Nodup :=
  c2_surrogate_codes.1 "eng_english_primary"
    [[{ text := "The", x0 := 10, x1 := 20, top := 1 }]] (by decide)
